import Mathlib

set_option maxRecDepth 100000

/-!
Verification development for the unified-doc-agent ingestion / retrieval
pipeline.  Strings of the Go source are modelled as `List Char`; each Go
function used by the claims is embedded as a computable Lean definition with
the same structure, and network / filesystem effects are made explicit
(backend oracles passed as arguments, call lists and leftover temp files
returned as extra components).
-/

namespace UDA

/-- Whitespace predicate of Go `unicode.IsSpace` (the White_Space code
points), used by `strings.TrimSpace`. -/
def goIsSpace (c : Char) : Bool :=
  let n := c.toNat
  (9 ≤ n && n ≤ 13) || n == 32 || n == 0x85 || n == 0xA0 || n == 0x1680 ||
  (0x2000 ≤ n && n ≤ 0x200A) || n == 0x2028 || n == 0x2029 || n == 0x202F ||
  n == 0x205F || n == 0x3000

/-- Go `strings.TrimSpace`: drop whitespace from both ends. -/
def trimSpace (l : List Char) : List Char :=
  ((l.dropWhile goIsSpace).reverse.dropWhile goIsSpace).reverse

/-- State machine for Go `regexp.MustCompile("\n\x7b2,\x7d").Split(text, -1)`
(chunker.go line 10-11): `acc` is the current piece reversed, `k` counts the
pending run of newlines just read.  A run of two or more newlines is a
separator (greedy, i.e. a maximal newline run); shorter runs stay inside the
piece. -/
def splitParasAux : List Char → List Char → Nat → List (List Char)
  | [], acc, k =>
    if 2 ≤ k then [acc.reverse, []] else [acc.reverse ++ List.replicate k '\n']
  | c :: rest, acc, k =>
    if c = '\n' then splitParasAux rest acc (k + 1)
    else if 2 ≤ k then acc.reverse :: splitParasAux rest [c] 0
    else splitParasAux rest (c :: (List.replicate k '\n' ++ acc)) 0

/-- Paragraph split of `ChunkText` (chunker.go lines 10-11). -/
def splitParas (l : List Char) : List (List Char) :=
  splitParasAux l [] 0

/-- Loop of `splitLong` (chunker.go lines 28-38) recast on the remaining
suffix `rem = s[i:]`: the window is `rem.take maxLen`; when the window end
reaches the end of the string (`rem.length ≤ maxLen`, i.e. `end == len(s)`)
the trimmed final window is appended and the loop breaks, otherwise the
index advances by `maxLen - overlap`.  `fuel` only bounds the recursion; it
is always sufficient because every call site passes the full string length
and each step strictly shortens `rem`. -/
def splitLongGo (maxLen overlap : Nat) : Nat → List Char → List (List Char)
  | 0, _ => []
  | fuel + 1, rem =>
    if rem.length ≤ maxLen then [trimSpace rem]
    else trimSpace (rem.take maxLen) ::
      splitLongGo maxLen overlap fuel (rem.drop (maxLen - overlap))

/-- Go `splitLong` (chunker.go lines 24-40): a string at or under `maxLen`
is returned as the single untouched chunk; a longer string is cut into
overlapping windows, each trimmed. -/
def splitLong (s : List Char) (maxLen overlap : Nat) : List (List Char) :=
  if s.length ≤ maxLen then [s] else splitLongGo maxLen overlap s.length s

/-- Body of the paragraph loop of `ChunkText` (chunker.go lines 13-20):
trim each paragraph, skip empties, re-split long paragraphs. -/
def chunksOfParas : List (List Char) → List (List Char)
  | [] => []
  | p :: ps =>
    (if trimSpace p = [] then [] else splitLong (trimSpace p) 1000 200) ++
      chunksOfParas ps

/-- Go `ChunkText` (chunker.go lines 9-22). -/
def ChunkText (text : List Char) : List (List Char) :=
  chunksOfParas (splitParas text)

/-! ### Basic facts about `trimSpace` -/

theorem dropWhile_eq_nil_of_all {p : Char → Bool} :
    ∀ l : List Char, (∀ c ∈ l, p c = true) → l.dropWhile p = [] := by
  intro l h
  induction l with
  | nil => rfl
  | cons a l ih =>
    rw [List.dropWhile_cons]
    simp only [h a (by simp), if_true]
    exact ih fun c hc => h c (by simp [hc])

theorem trimSpace_eq_nil {l : List Char} (h : ∀ c ∈ l, goIsSpace c = true) :
    trimSpace l = [] := by
  unfold trimSpace
  rw [dropWhile_eq_nil_of_all l h]
  rfl

theorem dropWhile_head_false {p : Char → Bool} :
    ∀ (l : List Char) {x : Char} {xs : List Char},
      l.dropWhile p = x :: xs → p x = false := by
  intro l
  induction l with
  | nil => intro x xs h; cases h
  | cons a l ih =>
    intro x xs h
    rw [List.dropWhile_cons] at h
    by_cases hp : p a = true
    · exact ih (by simpa [hp] using h)
    · simp only [hp, if_false] at h
      cases h
      simpa using hp

theorem dropWhile_eq_self_of_head {p : Char → Bool} {l : List Char} {x : Char}
    (h : l.head? = some x) (hx : p x = false) : l.dropWhile p = l := by
  cases l with
  | nil => rfl
  | cons a l =>
    simp only [List.head?_cons, Option.some.injEq] at h
    subst h
    rw [List.dropWhile_cons, hx]
    simp

theorem getLast?_dropWhile {p : Char → Bool} :
    ∀ l : List Char, l.dropWhile p = [] ∨ (l.dropWhile p).getLast? = l.getLast? := by
  intro l
  induction l with
  | nil => exact Or.inl rfl
  | cons a l ih =>
    by_cases hp : p a = true
    · rw [List.dropWhile_cons, if_pos hp]
      by_cases hl : List.dropWhile p l = []
      · exact Or.inl hl
      · right
        rcases ih with h | h
        · exact absurd h hl
        · rw [h]
          cases l with
          | nil => exact absurd rfl hl
          | cons b l' => exact (List.getLast?_cons_cons).symm
    · rw [List.dropWhile_cons, if_neg hp]
      exact Or.inr rfl

theorem trimSpace_idem (l : List Char) : trimSpace (trimSpace l) = trimSpace l := by
  rcases h1 : l.dropWhile goIsSpace with _ | ⟨x, xs⟩
  · have ht : trimSpace l = [] := by simp [trimSpace, h1]
    rw [ht]; rfl
  · have hx : goIsSpace x = false := dropWhile_head_false _ h1
    rcases h2 : (l.dropWhile goIsSpace).reverse.dropWhile goIsSpace with _ | ⟨y, ys⟩
    · have ht : trimSpace l = [] := by simp [trimSpace, h2]
      rw [ht]; rfl
    · have hy : goIsSpace y = false := dropWhile_head_false _ h2
      have ht : trimSpace l = ((y :: ys).reverse : List Char) := by
        simp [trimSpace, h2]
      have hlast : (y :: ys).getLast? = some x := by
        rcases getLast?_dropWhile ((l.dropWhile goIsSpace).reverse) (p := goIsSpace)
          with hnil | heq
        · rw [h2] at hnil; cases hnil
        · rw [h2] at heq
          rw [heq, List.getLast?_reverse, h1]
          rfl
      have hhead : ((y :: ys).reverse : List Char).head? = some x := by
        rw [List.head?_reverse, hlast]
      rw [ht]
      unfold trimSpace
      rw [dropWhile_eq_self_of_head hhead hx, List.reverse_reverse,
        dropWhile_eq_self_of_head (by simp) hy]

theorem trimSpace_length_le (l : List Char) : (trimSpace l).length ≤ l.length := by
  unfold trimSpace
  calc ((l.dropWhile goIsSpace).reverse.dropWhile goIsSpace).reverse.length
      = ((l.dropWhile goIsSpace).reverse.dropWhile goIsSpace).length := by
        rw [List.length_reverse]
    _ ≤ (l.dropWhile goIsSpace).reverse.length :=
        (List.dropWhile_suffix _).length_le
    _ = (l.dropWhile goIsSpace).length := by rw [List.length_reverse]
    _ ≤ l.length := (List.dropWhile_suffix _).length_le

/-! ### Closed form of the `splitLong` window loop (maxLen = 1000, overlap = 200) -/

/-- Number of windows `splitLong` produces for a paragraph of length `L`:
the Nat ceiling `ceil((L - 1000) / 800) + 1` (equal to `1` when `L ≤ 1000`). -/
def wCount (L : Nat) : Nat :=
  (L - 1000 + 799) / 800 + 1

theorem wCount_step {L : Nat} (h : 1000 < L) : wCount L = wCount (L - 800) + 1 := by
  unfold wCount
  omega

theorem splitLongGo_closed :
    ∀ (fuel : Nat) (rem : List Char), 0 < rem.length → rem.length ≤ fuel →
      splitLongGo 1000 200 fuel rem =
        (List.range (wCount rem.length)).map
          (fun k => trimSpace ((rem.drop (800 * k)).take 1000)) := by
  intro fuel
  induction fuel with
  | zero => intro rem h0 hle; omega
  | succ fuel ih =>
    intro rem h0 hle
    by_cases hshort : rem.length ≤ 1000
    · have hc : wCount rem.length = 1 := by unfold wCount; omega
      rw [splitLongGo, if_pos hshort, hc]
      have h1 : List.range 1 = [0] := rfl
      rw [h1]
      simp [List.take_of_length_le hshort]
    · have hlong : 1000 < rem.length := by omega
      rw [splitLongGo, if_neg hshort]
      have hd : (rem.drop (1000 - 200)).length = rem.length - 800 := by
        rw [List.length_drop]
      have ih' := ih (rem.drop (1000 - 200)) (by omega) (by omega)
      rw [ih', hd, wCount_step hlong, List.range_succ_eq_map]
      simp only [List.map_cons, List.map_map]
      congr 1
      apply List.map_congr_left
      intro k _
      simp only [Function.comp_apply]
      rw [List.drop_drop]
      have harith : 1000 - 200 + 800 * k = 800 * Nat.succ k := by omega
      rw [harith]

theorem splitLong_closed {s : List Char} (h : 1000 < s.length) :
    splitLong s 1000 200 =
      (List.range (wCount s.length)).map
        (fun k => trimSpace ((s.drop (800 * k)).take 1000)) := by
  rw [splitLong, if_neg (by omega)]
  exact splitLongGo_closed s.length s (by omega) le_rfl

/-- Every chunk emitted by the window loop is the trim of some window. -/
theorem splitLongGo_mem_trim :
    ∀ (maxLen overlap fuel : Nat) (rem c : List Char),
      c ∈ splitLongGo maxLen overlap fuel rem → ∃ w, c = trimSpace w := by
  intro maxLen overlap fuel
  induction fuel with
  | zero => intro rem c hc; cases hc
  | succ fuel ih =>
    intro rem c hc
    rw [splitLongGo] at hc
    by_cases hshort : rem.length ≤ maxLen
    · rw [if_pos hshort] at hc
      simp only [List.mem_singleton] at hc
      exact ⟨rem, hc⟩
    · rw [if_neg hshort] at hc
      rcases List.mem_cons.mp hc with h | h
      · exact ⟨rem.take maxLen, h⟩
      · exact ih _ _ h

/-- Every chunk `ChunkText` emits through `splitLong` on an already-trimmed
paragraph is the trim of some string. -/
theorem splitLong_mem_trim {p c : List Char}
    (hc : c ∈ splitLong (trimSpace p) 1000 200) : ∃ w, c = trimSpace w := by
  rw [splitLong] at hc
  by_cases hshort : (trimSpace p).length ≤ 1000
  · rw [if_pos hshort] at hc
    simp only [List.mem_singleton] at hc
    exact ⟨p, hc⟩
  · rw [if_neg hshort] at hc
    exact splitLongGo_mem_trim _ _ _ _ _ hc

/-! ### Chunks and paragraphs -/

theorem chunksOfParas_mem :
    ∀ (ps : List (List Char)) (c : List Char), c ∈ chunksOfParas ps →
      ∃ p ∈ ps, c ∈ splitLong (trimSpace p) 1000 200 := by
  intro ps
  induction ps with
  | nil => intro c hc; cases hc
  | cons p ps ih =>
    intro c hc
    rw [chunksOfParas] at hc
    rcases List.mem_append.mp hc with h | h
    · by_cases hp : trimSpace p = []
      · rw [if_pos hp] at h; cases h
      · rw [if_neg hp] at h
        exact ⟨p, by simp, h⟩
    · rcases ih c h with ⟨q, hq, hcq⟩
      exact ⟨q, by simp [hq], hcq⟩

theorem chunksOfParas_eq_nil {ps : List (List Char)}
    (h : ∀ p ∈ ps, trimSpace p = []) : chunksOfParas ps = [] := by
  induction ps with
  | nil => rfl
  | cons p ps ih =>
    rw [chunksOfParas, if_pos (h p (by simp))]
    exact ih fun q hq => h q (by simp [hq])

/-- Characters of the pieces of the paragraph split all come from the input
text, the pending accumulator, or are newlines. -/
theorem splitParasAux_mem_chars :
    ∀ (l acc : List Char) (k : Nat) (p : List Char) (c : Char),
      p ∈ splitParasAux l acc k → c ∈ p → c ∈ l ∨ c ∈ acc ∨ c = '\n' := by
  intro l
  induction l with
  | nil =>
    intro acc k p c hp hc
    rw [splitParasAux] at hp
    by_cases hk : 2 ≤ k
    · rw [if_pos hk] at hp
      rcases List.mem_cons.mp hp with h | h
      · subst h; right; left; exact List.mem_reverse.mp hc
      · simp only [List.mem_singleton] at h; subst h; cases hc
    · rw [if_neg hk] at hp
      simp only [List.mem_singleton] at hp
      subst hp
      rcases List.mem_append.mp hc with h | h
      · right; left; exact List.mem_reverse.mp h
      · right; right; exact List.eq_of_mem_replicate h
  | cons a l ih =>
    intro acc k p c hp hc
    rw [splitParasAux] at hp
    by_cases ha : a = '\n'
    · rw [if_pos ha] at hp
      rcases ih acc (k + 1) p c hp hc with h | h | h
      · exact Or.inl (by simp [h])
      · exact Or.inr (Or.inl h)
      · exact Or.inr (Or.inr h)
    · rw [if_neg ha] at hp
      by_cases hk : 2 ≤ k
      · rw [if_pos hk] at hp
        rcases List.mem_cons.mp hp with h | h
        · subst h; right; left; exact List.mem_reverse.mp hc
        · rcases ih [a] 0 p c h hc with h' | h' | h'
          · exact Or.inl (by simp [h'])
          · simp only [List.mem_singleton] at h'; exact Or.inl (by simp [h'])
          · exact Or.inr (Or.inr h')
      · rw [if_neg hk] at hp
        rcases ih _ 0 p c hp hc with h' | h' | h'
        · exact Or.inl (by simp [h'])
        · rcases List.mem_cons.mp h' with h'' | h''
          · exact Or.inl (by simp [h''])
          · rcases List.mem_append.mp h'' with h3 | h3
            · exact Or.inr (Or.inr (List.eq_of_mem_replicate h3))
            · exact Or.inr (Or.inl h3)
        · exact Or.inr (Or.inr h')

/-- A pure-whitespace (or empty) document chunks to nothing: every paragraph
piece is whitespace-only, so every piece trims to empty and is skipped. -/
theorem chunkText_space_nil {t : List Char} (hall : ∀ ch ∈ t, goIsSpace ch = true) :
    ChunkText t = [] := by
  apply chunksOfParas_eq_nil
  intro p hp
  apply trimSpace_eq_nil
  intro ch hch
  rcases splitParasAux_mem_chars t [] 0 p ch hp hch with h | h | h
  · exact hall ch h
  · cases h
  · subst h; rfl

/-! ### Claim C1 -/

/-- Amended chunking invariant: every chunk is its own trim (no leading or
trailing whitespace), every non-empty chunk is not whitespace-only, and a
pure-whitespace or empty input yields zero chunks.  (The original claim also
required chunks to be non-empty, which the code does not guarantee: see the
counterexample.) -/
def SpecC1 (t : List Char) : Prop :=
  (∀ c ∈ ChunkText t, trimSpace c = c) ∧
  (∀ c ∈ ChunkText t, c ≠ [] → ¬ (∀ ch ∈ c, goIsSpace ch = true)) ∧
  ((∀ ch ∈ t, goIsSpace ch = true) → ChunkText t = [])

/-- C1 (amended): chunks returned by `ChunkText` carry no surrounding
whitespace, non-empty chunks are never whitespace-only, and a pure-whitespace
or empty input returns zero chunks; however `ChunkText` may return an empty
chunk (see the counterexample), so the claim as stated fails. -/
theorem chunkText_c1_amended (t : List Char) : SpecC1 t := by
  have htrim : ∀ c ∈ ChunkText t, trimSpace c = c := by
    intro c hc
    obtain ⟨p, _, hcp⟩ := chunksOfParas_mem _ _ hc
    obtain ⟨w, rfl⟩ := splitLong_mem_trim hcp
    exact trimSpace_idem w
  refine ⟨htrim, ?_, ?_⟩
  · intro c hc hne hall
    have h1 := htrim c hc
    rw [trimSpace_eq_nil hall] at h1
    exact hne h1.symm
  · exact chunkText_space_nil

/-- Witness instance of the amended C1 invariant at a concrete input. -/
theorem chunkText_c1_witness : SpecC1 ('h' :: 'i' :: []) :=
  chunkText_c1_amended _

/-- Single 1801-character paragraph: `a`, then 1799 spaces, then `b`.  The
window loop of `splitLong` cuts the all-space window `[800, 1800)` out of it
and appends its trim, the empty string. -/
def c1input : List Char := 'a' :: (List.replicate 1799 ' ' ++ ['b'])

/-- C1 counterexample: the original claim — every chunk of every input is
non-empty and not whitespace-only — is false: on `c1input` the second chunk
returned by `ChunkText` is the empty string. -/
theorem chunkText_c1_cex :
    ¬ (∀ c ∈ ChunkText c1input, c ≠ [] ∧ ¬ (∀ ch ∈ c, goIsSpace ch = true)) := by
  decide

/-! ### Claim C3 -/

/-- Window shape of `splitLong` on a long paragraph (maxLen 1000, overlap
200): exactly `ceil((L - 1000) / 800) + 1` windows; window `k` is the slice
`[800k, min(800k + 1000, L))` of the paragraph, trimmed before being
appended; every emitted chunk has length at most 1000; and consecutive
windows share exactly 200 positions. -/
def SpecC3 (s : List Char) : Prop :=
  (splitLong s 1000 200).length = (s.length - 1000 + 799) / 800 + 1 ∧
  (∀ k, k < (s.length - 1000 + 799) / 800 + 1 →
    (splitLong s 1000 200).getD k [] = trimSpace ((s.drop (800 * k)).take 1000)) ∧
  (∀ c ∈ splitLong s 1000 200, c.length ≤ 1000) ∧
  (∀ k, k + 1 < (s.length - 1000 + 799) / 800 + 1 →
    min (800 * k + 1000) s.length - 800 * (k + 1) = 200)

/-- C3: for every paragraph longer than 1000 characters, `splitLong`
produces `ceil((L - 1000) / 800) + 1` overlapping windows with the stated
starts, sizes and 200-character overlaps. -/
theorem splitLong_c3 (s : List Char) (h : 1000 < s.length) : SpecC3 s := by
  have hclosed := splitLong_closed h
  have hn : wCount s.length = (s.length - 1000 + 799) / 800 + 1 := rfl
  refine ⟨?_, ?_, ?_, ?_⟩
  · rw [hclosed, List.length_map, List.length_range, hn]
  · intro k hk
    rw [hclosed, List.getD_eq_getElem?_getD, List.getElem?_map,
      List.getElem?_range (by rw [hn]; exact hk)]
    rfl
  · intro c hc
    rw [hclosed] at hc
    rcases List.mem_map.mp hc with ⟨k, _, rfl⟩
    calc (trimSpace ((s.drop (800 * k)).take 1000)).length
        ≤ ((s.drop (800 * k)).take 1000).length := trimSpace_length_le _
      _ ≤ 1000 := by rw [List.length_take]; exact min_le_left _ _
  · intro k hk
    omega

/-- Witness instance of C3 at a concrete 1001-character paragraph. -/
theorem splitLong_c3_witness :
    1000 < (List.replicate 1001 'x').length ∧ SpecC3 (List.replicate 1001 'x') :=
  ⟨by simp, splitLong_c3 _ (by simp)⟩

/-! ### Embedder (embedder part of chunker.go)

The HTTP round trip to the embedding backend is modelled as an oracle from
the request text to the observable outcome of the call: transport failure,
non-200 response with its body, JSON decode failure, or a decoded embedding
vector. -/

/-- `EmbeddingDim` (chunker.go): fixed embedding dimension. -/
def EmbeddingDim : Nat := 768

/-- Outcome of one POST to the Ollama embeddings endpoint, as observed by
`getOllamaEmbedding`. -/
inductive OllamaHttp where
  | reqFailed : OllamaHttp
  | non200 (body : List Char) : OllamaHttp
  | badJson : OllamaHttp
  | decoded (emb : List Float) : OllamaHttp

/-- Errors of the embedding layer (the distinct `fmt.Errorf` sites of
chunker.go). -/
inductive EmbErr where
  | requestFailed : EmbErr
  | ollamaBody (body : List Char) : EmbErr
  | decodeFailed : EmbErr
  | dimMismatch (want got : Nat) : EmbErr
  | noChunks : EmbErr
  | emptyQuery : EmbErr
  | chunkFailed (i : Nat) (e : EmbErr) : EmbErr
deriving DecidableEq

/-- Go `getOllamaEmbedding` (chunker.go lines 97-125) over the observed
call outcome: errors propagate, a decoded vector of the wrong length is
rejected, a decoded vector of length `EmbeddingDim` is returned as is. -/
def getOllamaEmbedding (r : OllamaHttp) : Except EmbErr (List Float) :=
  match r with
  | .reqFailed => .error .requestFailed
  | .non200 body => .error (.ollamaBody body)
  | .badJson => .error .decodeFailed
  | .decoded emb =>
    if emb.length = EmbeddingDim then .ok emb
    else .error (.dimMismatch EmbeddingDim emb.length)

/-- Indexed loop of `EmbedChunks` (chunker.go lines 76-83): embed each chunk
in order, aborting with the 0-based index of the first failing item. -/
def embedLoop (backend : List Char → OllamaHttp) (i : Nat) :
    List (List Char) → Except EmbErr (List (List Float))
  | [] => .ok []
  | c :: cs =>
    match getOllamaEmbedding (backend c) with
    | .error e => .error (.chunkFailed i e)
    | .ok emb =>
      match embedLoop backend (i + 1) cs with
      | .error e => .error e
      | .ok rest => .ok (emb :: rest)

/-- Go `EmbedChunks` (chunker.go lines 71-86): an empty batch is an error;
otherwise every chunk is embedded by an independent backend call. -/
def EmbedChunks (backend : List Char → OllamaHttp) (chunks : List (List Char)) :
    Except EmbErr (List (List Float)) :=
  match chunks with
  | [] => .error .noChunks
  | _ => embedLoop backend 0 chunks

/-- Go `QueryEmbedding` (chunker.go lines 89-94): empty queries are refused,
otherwise one backend call. -/
def QueryEmbedding (backend : List Char → OllamaHttp) (query : List Char) :
    Except EmbErr (List Float) :=
  if query = [] then .error .emptyQuery else getOllamaEmbedding (backend query)

/-! ### Extractor, optical fallback, and the per-file ingestion step

`ExtractTextFromPDF` and the external tools (`pdftoppm`, tesseract) are
oracles.  Filesystem effects of the optical fallback are explicit: the
second component of its result is the list of temporary page images present
in the temp directory when the function returns (the source deletes none of
them). -/

/-- Environment of one `ExtractTextWithOCR` run on a PDF (ocr.go lines
15-43): `convertResult` is `none` when `pdftoppm` fails and otherwise the
page image files it wrote (the files the glob finds); `tess` is the result
of `client.Text()` per page image, `none` on a recognition error. -/
structure OcrEnv where
  convertResult : Option (List (List Char))
  tess : List Char → Option (List Char)

/-- Go `runTesseract` (ocr.go lines 45-56): recognition result, trimmed. -/
def runTesseract (tess : List Char → Option (List Char)) (img : List Char) :
    Option (List Char) :=
  match tess img with
  | none => none
  | some t => some (trimSpace t)

/-- Page loop of `ExtractTextWithOCR` (ocr.go lines 31-39): a failing page
is skipped (`continue`); each recognized page contributes its text plus a
newline separator. -/
def ocrPages (tess : List Char → Option (List Char)) : List (List Char) → List Char
  | [] => []
  | m :: ms =>
    match runTesseract tess m with
    | none => ocrPages tess ms
    | some t => t ++ '\n' :: ocrPages tess ms

/-- Go `ExtractTextWithOCR` on a `.pdf` (ocr.go lines 17-40): convert pages
to images, recognize each, trim the concatenation.  The second component is
the set of temporary page images still on disk at return; the source never
removes them, so on a successful conversion it is exactly the page list.
(Partial files of a failed conversion are not modelled.) -/
def ExtractTextWithOCRpdf (env : OcrEnv) :
    Except Unit (List Char) × List (List Char) :=
  match env.convertResult with
  | none => (.error (), [])
  | some pages => (.ok (trimSpace (ocrPages env.tess pages)), pages)

/-- The `.pdf` branch of `ExtractText` (extractor.go lines 20-27), over the
text-layer result `textLayer` and the optical-fallback result `ocrRes`.  The
second component counts the `ExtractTextWithOCR` invocations. -/
def ExtractTextPdf (textLayer : Except Unit (List Char))
    (ocrRes : Except Unit (List Char)) : Except Unit (List Char) × Nat :=
  match textLayer with
  | .ok t => if trimSpace t = [] then (ocrRes, 1) else (.ok t, 0)
  | .error _ => (ocrRes, 1)

/-- Outcome of one iteration of the per-file indexing loop (main.go lines
45-61): skip on extraction error, skip on embedding error, or insert the
embedded chunks. -/
inductive FileOutcome where
  | skipExtract : FileOutcome
  | skipEmbed (e : EmbErr) : FileOutcome
  | indexed (chunkCount : Nat) : FileOutcome
deriving DecidableEq

/-- One iteration of the indexing loop of `main` (main.go lines 45-61):
extraction failure skips the file; embedding failure skips the file;
otherwise the chunks are inserted. -/
def indexFile (extractRes : Except Unit (List Char))
    (backend : List Char → OllamaHttp) : FileOutcome :=
  match extractRes with
  | .error _ => .skipExtract
  | .ok text =>
    match EmbedChunks backend (ChunkText text) with
    | .error e => .skipEmbed e
    | .ok embs => .indexed embs.length

/-! ### Workflow graph: state, summarizer, critic -/

/-- Go `graph.State` (unnamed part_002): query, retrieved documents, answer,
and the injected search capability (opaque here). -/
structure State (D : Type) where
  query : List Char
  docs : List (List Char)
  ans : List Char
  db : D

/-- Errors of the summarizer stage (the `fmt.Errorf` sites of
`SummarizerNode`). -/
inductive GraphErr where
  | httpSetup : GraphErr
  | httpCall : GraphErr
  | decodeErr : GraphErr
deriving DecidableEq

/-- One decode attempt on the streaming generation response: a decoded
fragment `{response, done}`, or a decode failure. End-of-stream is the end
of the event list. -/
inductive GenEvent where
  | frag (resp : List Char) (done : Bool) : GenEvent
  | bad : GenEvent
deriving DecidableEq

/-- Streaming read loop of `SummarizerNode` (unnamed part_001 lines 64-76):
append each fragment text in arrival order; a decode failure is an error;
stop at the first fragment whose completion flag is set (its text is still
appended) or at end-of-stream. -/
def consumeStream : List GenEvent → List Char → Except GraphErr (List Char)
  | [], acc => .ok acc
  | .bad :: _, _ => .error .decodeErr
  | .frag r d :: rest, acc =>
    if d then .ok (acc ++ r) else consumeStream rest (acc ++ r)

/-- Decimal digits of a natural number, as Go `fmt` prints it. -/
def natChars (n : Nat) : List Char :=
  (toString n).data

/-- Modelled from fmt `%q` escaping for one character: the common escape
sequences; other characters pass through verbatim (the claims never inspect
the quoted form). -/
def escapeChar (c : Char) : List Char :=
  if c = '"' then ['\\', '"']
  else if c = '\\' then ['\\', '\\']
  else if c = '\n' then ['\\', 'n']
  else if c = '\r' then ['\\', 'r']
  else if c = '\t' then ['\\', 't']
  else [c]

/-- Body of the fmt `%q` quoted form. -/
def goQuoteBody : List Char → List Char
  | [] => []
  | c :: cs => escapeChar c ++ goQuoteBody cs

/-- Modelled from fmt `%q`: double-quoted, escaped string. -/
def goQuote (q : List Char) : List Char :=
  '"' :: (goQuoteBody q ++ ['"'])

/-- Document block of the summarization prompt (unnamed part_001 lines
32-35): each document under a numbered heading, 1-based. -/
def docTextAux : Nat → List (List Char) → List Char
  | _, [] => []
  | i, d :: ds =>
    "Document ".data ++ natChars (i + 1) ++ ":\n".data ++ d ++ "\n\n".data ++
      docTextAux (i + 1) ds

/-- Summarization prompt (unnamed part_001 lines 37-41). -/
def buildPrompt (query : List Char) (docs : List (List Char)) : List Char :=
  "The user asked: ".data ++ goQuote query ++
    ".\n\nSummarize the following documents in the context of this query:\n\n".data ++
    docTextAux 0 docs

/-- Fixed answer for an empty retrieval result (unnamed part_001 line 28). -/
def noDocsMsg : List Char :=
  "No documents found matching the query.".data

/-- Go `SummarizerNode` (unnamed part_001): empty docs short-circuit with
the fixed message; otherwise build the prompt, call the generation backend
(`gen`, an oracle from the prompt to the transport outcome and decode-event
stream), and consume the stream.  The second component lists the prompts
sent to the backend. -/
def SummarizerNode {D : Type} (gen : List Char → Except Unit (List GenEvent))
    (s : State D) : Except GraphErr (State D) × List (List Char) :=
  if s.docs.length = 0 then (.ok { s with ans := noDocsMsg }, [])
  else
    match gen (buildPrompt s.query s.docs) with
    | .error _ => (.error .httpCall, [buildPrompt s.query s.docs])
    | .ok events =>
      match consumeStream events [] with
      | .error e => (.error e, [buildPrompt s.query s.docs])
      | .ok text => (.ok { s with ans := text }, [buildPrompt s.query s.docs])

/-- Advisory suffix of the critic stage (unnamed part_000 line 21). -/
def advisorySuffix : List Char :=
  "\n\n(Note: result short; consider rephrasing your query or indexing more documents.)".data

/-- Go `CriticNode` (unnamed part_000 lines 18-24): append the advisory
suffix when the answer is under 50 characters; always succeed. -/
def CriticNode {D : Type} (s : State D) : Except GraphErr (State D) :=
  if s.ans.length < 50 then .ok { s with ans := s.ans ++ advisorySuffix }
  else .ok s

/-! ### Embedder lemmas and claims C4, C5 -/

theorem embedLoop_ok_of_all {backend : List Char → OllamaHttp}
    {f : List Char → List Float} :
    ∀ (cs : List (List Char)) (i : Nat),
      (∀ c ∈ cs, getOllamaEmbedding (backend c) = .ok (f c)) →
      embedLoop backend i cs = .ok (cs.map f) := by
  intro cs
  induction cs with
  | nil => intro i _; rfl
  | cons c cs ih =>
    intro i h
    rw [embedLoop, h c (by simp), ih (i + 1) fun d hd => h d (by simp [hd])]
    rfl

theorem embedLoop_err_at {backend : List Char → OllamaHttp} {e : EmbErr} :
    ∀ (cs : List (List Char)) (i : Nat), i < cs.length →
      (∀ j, j < i → ∃ v, getOllamaEmbedding (backend (cs.getD j [])) = .ok v) →
      getOllamaEmbedding (backend (cs.getD i [])) = .error e →
      ∀ k, embedLoop backend k cs = .error (.chunkFailed (k + i) e) := by
  intro cs
  induction cs with
  | nil => intro i hi; exact absurd hi (by simp)
  | cons c cs ih =>
    intro i hi hok herr k
    cases i with
    | zero =>
      simp only [List.getD_cons_zero] at herr
      rw [embedLoop, herr]
      rfl
    | succ i' =>
      obtain ⟨v, hv⟩ := hok 0 (Nat.succ_pos i')
      simp only [List.getD_cons_zero] at hv
      rw [embedLoop, hv]
      have hrec := ih i' (by simpa using hi)
        (fun j hj => by simpa using hok (j + 1) (by omega))
        (by simpa using herr) (k + 1)
      rw [hrec]
      have : k + 1 + i' = k + (i' + 1) := by omega
      rw [this]

theorem embedLoop_ok_calls {backend : List Char → OllamaHttp} :
    ∀ (cs : List (List Char)) (i : Nat) (vs : List (List Float)),
      embedLoop backend i cs = .ok vs →
      ∀ c ∈ cs, ∃ v, getOllamaEmbedding (backend c) = .ok v := by
  intro cs
  induction cs with
  | nil => intro i vs _ c hc; cases hc
  | cons c cs ih =>
    intro i vs h d hd
    rw [embedLoop] at h
    rcases hcall : getOllamaEmbedding (backend c) with e | emb
    · rw [hcall] at h; cases h
    · rw [hcall] at h
      rcases List.mem_cons.mp hd with rfl | hd'
      · exact ⟨emb, hcall⟩
      · rcases hrest : embedLoop backend (i + 1) cs with e | rest
        · rw [hrest] at h; cases h
        · exact ih (i + 1) rest hrest d hd'

theorem getOllama_ok_inv {r : OllamaHttp} {v : List Float}
    (h : getOllamaEmbedding r = .ok v) :
    r = .decoded v ∧ v.length = EmbeddingDim := by
  cases r with
  | reqFailed => cases h
  | non200 body => cases h
  | badJson => cases h
  | decoded emb =>
    rw [getOllamaEmbedding] at h
    by_cases hlen : emb.length = EmbeddingDim
    · rw [if_pos hlen] at h
      cases h
      exact ⟨rfl, hlen⟩
    · rw [if_neg hlen] at h
      cases h

theorem embedLoop_ok_lengths {backend : List Char → OllamaHttp} :
    ∀ (cs : List (List Char)) (i : Nat) (vs : List (List Float)),
      embedLoop backend i cs = .ok vs → ∀ v ∈ vs, v.length = EmbeddingDim := by
  intro cs
  induction cs with
  | nil =>
    intro i vs h v hv
    cases h
    cases hv
  | cons c cs ih =>
    intro i vs h v hv
    rw [embedLoop] at h
    rcases hcall : getOllamaEmbedding (backend c) with e | emb
    · rw [hcall] at h; cases h
    · rw [hcall] at h
      rcases hrest : embedLoop backend (i + 1) cs with e | rest
      · rw [hrest] at h; cases h
      · rw [hrest] at h
        cases h
        rcases List.mem_cons.mp hv with rfl | hv'
        · exact (getOllama_ok_inv hcall).2
        · exact ih (i + 1) rest hrest v hv'

/-- C4: for a non-empty batch, when every backend call succeeds the result is
one vector per input in input order (hence exactly N vectors); the first
error aborts the batch with the 0-based index of the failing item. -/
theorem embedChunks_c4 (backend : List Char → OllamaHttp)
    (chunks : List (List Char)) (h : chunks ≠ []) :
    (∀ f : List Char → List Float,
      (∀ c ∈ chunks, getOllamaEmbedding (backend c) = .ok (f c)) →
      EmbedChunks backend chunks = .ok (chunks.map f) ∧
        (chunks.map f).length = chunks.length) ∧
    (∀ i e, i < chunks.length →
      (∀ j, j < i → ∃ v, getOllamaEmbedding (backend (chunks.getD j [])) = .ok v) →
      getOllamaEmbedding (backend (chunks.getD i [])) = .error e →
      EmbedChunks backend chunks = .error (.chunkFailed i e)) := by
  have hunfold : EmbedChunks backend chunks = embedLoop backend 0 chunks := by
    cases chunks with
    | nil => exact absurd rfl h
    | cons c cs => rfl
  constructor
  · intro f hf
    rw [hunfold, embedLoop_ok_of_all chunks 0 hf, List.length_map]
    exact ⟨rfl, rfl⟩
  · intro i e hi hok herr
    rw [hunfold]
    simpa using embedLoop_err_at chunks i hi hok herr 0

/-- Witness for C4: a two-chunk batch embeds to two vectors in order under an
all-successful backend, and a backend failing only on the second chunk aborts
the batch identifying index 1. -/
theorem embedChunks_c4_witness :
    (['a'] :: ['b'] :: [] : List (List Char)) ≠ [] ∧
    EmbedChunks (fun _ => OllamaHttp.decoded (List.replicate 768 (0 : Float)))
        (['a'] :: ['b'] :: []) =
      .ok ((['a'] :: ['b'] :: []).map fun _ => List.replicate 768 (0 : Float)) ∧
    EmbedChunks
        (fun c => if c = ['b'] then OllamaHttp.reqFailed
          else OllamaHttp.decoded (List.replicate 768 (0 : Float)))
        (['a'] :: ['b'] :: []) =
      .error (.chunkFailed 1 .requestFailed) := by
  refine ⟨by simp, ?_, ?_⟩
  · exact ((embedChunks_c4
      (fun _ => OllamaHttp.decoded (List.replicate 768 (0 : Float)))
      (['a'] :: ['b'] :: []) (by simp)).1
      (fun _ => List.replicate 768 (0 : Float)) (fun c _ => rfl)).1
  · apply (embedChunks_c4 _ _ (by simp)).2 1 EmbErr.requestFailed (by simp)
    · intro j hj
      have hj0 : j = 0 := by omega
      subst hj0
      exact ⟨List.replicate 768 (0 : Float), rfl⟩
    · rfl

/-- C5: a decoded vector whose length differs from the configured dimension
is rejected with a dimension-mismatch error by the shared backend call, by
the query path, and by the batch path (which can then never succeed); and
every vector either path returns successfully is exactly the decoded vector,
of length exactly `EmbeddingDim` — never truncated or padded. -/
theorem embedDim_c5 (emb : List Float) (h : emb.length ≠ EmbeddingDim) :
    getOllamaEmbedding (.decoded emb) =
      .error (.dimMismatch EmbeddingDim emb.length) ∧
    (∀ backend q, backend q = .decoded emb → q ≠ [] →
      QueryEmbedding backend q = .error (.dimMismatch EmbeddingDim emb.length)) ∧
    (∀ backend chunks t, t ∈ chunks → backend t = .decoded emb →
      ∀ vs, EmbedChunks backend chunks ≠ .ok vs) ∧
    (∀ r v, getOllamaEmbedding r = .ok v → r = .decoded v ∧ v.length = EmbeddingDim) ∧
    (∀ backend chunks vs, EmbedChunks backend chunks = .ok vs →
      ∀ v ∈ vs, v.length = EmbeddingDim) ∧
    (∀ backend q v, QueryEmbedding backend q = .ok v → v.length = EmbeddingDim) := by
  have hrej : getOllamaEmbedding (.decoded emb) =
      .error (.dimMismatch EmbeddingDim emb.length) := by
    rw [getOllamaEmbedding, if_neg h]
  have hloopok : ∀ (backend : List Char → OllamaHttp) chunks vs,
      EmbedChunks backend chunks = .ok vs → embedLoop backend 0 chunks = .ok vs := by
    intro backend chunks vs hvs
    cases chunks with
    | nil => cases hvs
    | cons c cs => exact hvs
  refine ⟨hrej, ?_, ?_, fun r v => getOllama_ok_inv, ?_, ?_⟩
  · intro backend q hq hne
    rw [QueryEmbedding, if_neg hne, hq, hrej]
  · intro backend chunks t ht hbt vs hvs
    obtain ⟨v, hv⟩ := embedLoop_ok_calls chunks 0 vs (hloopok backend chunks vs hvs) t ht
    rw [hbt, hrej] at hv
    cases hv
  · intro backend chunks vs hvs
    exact embedLoop_ok_lengths chunks 0 vs (hloopok backend chunks vs hvs)
  · intro backend q v hv
    rw [QueryEmbedding] at hv
    by_cases hq : q = []
    · rw [if_pos hq] at hv; cases hv
    · rw [if_neg hq] at hv
      exact (getOllama_ok_inv hv).2

/-- Witness for C5: the empty vector (dimension 0) is rejected by the
backend-call decoder and by the query path. -/
theorem embedDim_c5_witness :
    ([] : List Float).length ≠ EmbeddingDim ∧
    getOllamaEmbedding (.decoded ([] : List Float)) =
      .error (.dimMismatch EmbeddingDim 0) ∧
    QueryEmbedding (fun _ => .decoded ([] : List Float)) ['q'] =
      .error (.dimMismatch EmbeddingDim 0) := by
  refine ⟨by decide, ?_, ?_⟩
  · exact (embedDim_c5 [] (by decide)).1
  · exact (embedDim_c5 [] (by decide)).2.1 _ ['q'] rfl (by simp)

/-! ### Claim C10 -/

/-- C10: an empty batch is refused by `EmbedChunks` with the no-chunks
error, so a file whose extracted text chunks to nothing (for example a
pure-whitespace document) is dropped at the embedding step of the ingestion
loop with that error — not silently indexed as nothing. -/
theorem embedChunks_c10 (backend : List Char → OllamaHttp) :
    EmbedChunks backend [] = .error .noChunks ∧
    ∀ text : List Char, (∀ ch ∈ text, goIsSpace ch = true) →
      ChunkText text = [] ∧ indexFile (.ok text) backend = .skipEmbed .noChunks := by
  refine ⟨rfl, ?_⟩
  intro text hsp
  have hnil := chunkText_space_nil hsp
  refine ⟨hnil, ?_⟩
  have hstep : indexFile (.ok text) backend =
      match EmbedChunks backend (ChunkText text) with
      | .error e => .skipEmbed e
      | .ok embs => .indexed embs.length := rfl
  rw [hstep, hnil]
  rfl

/-- Witness for C10 at a one-space document and a concrete backend. -/
theorem embedChunks_c10_witness :
    EmbedChunks (fun _ => OllamaHttp.badJson) [] = .error .noChunks ∧
    (∀ ch ∈ [' '], goIsSpace ch = true) ∧
    indexFile (.ok [' ']) (fun _ => OllamaHttp.badJson) = .skipEmbed .noChunks :=
  ⟨(embedChunks_c10 _).1, by decide,
    ((embedChunks_c10 (fun _ => OllamaHttp.badJson)).2 [' '] (by decide)).2⟩

/-! ### Claim C2 -/

/-- C2 (amended): a `.pdf` whose text-layer extraction fails or yields only
whitespace triggers the optical fallback exactly once and returns its
result; when the fallback errors, the extraction fails and the ingestion
loop skips the file at the extraction step; but when the fallback succeeds
while yielding no text, `ExtractText` returns the empty text without error
and the file is instead dropped at the embedding step. -/
theorem extractPdf_c2_amended (tl ocr : Except Unit (List Char))
    (h : tl = .error () ∨ ∃ t, tl = .ok t ∧ trimSpace t = []) :
    ExtractTextPdf tl ocr = (ocr, 1) ∧
    (ocr = .error () →
      ∀ backend, indexFile (ExtractTextPdf tl ocr).1 backend = .skipExtract) ∧
    (ocr = .ok [] →
      ∀ backend, indexFile (ExtractTextPdf tl ocr).1 backend = .skipEmbed .noChunks) := by
  have h1 : ExtractTextPdf tl ocr = (ocr, 1) := by
    rcases h with h | ⟨t, rfl, htrim⟩
    · subst h; rfl
    · show (if trimSpace t = [] then (ocr, 1) else (.ok t, 0)) = (ocr, 1)
      rw [if_pos htrim]
  refine ⟨h1, ?_, ?_⟩
  · intro hocr backend
    rw [h1, hocr]
    rfl
  · intro hocr backend
    rw [h1, hocr]
    rfl

/-- Witness for C2 (amended): a whitespace-only text layer hands the call
off to the fallback exactly once, returning the text of the fallback. -/
theorem extractPdf_c2_witness :
    ((Except.ok [' '] : Except Unit (List Char)) = .error () ∨
      ∃ t, (Except.ok [' '] : Except Unit (List Char)) = .ok t ∧ trimSpace t = []) ∧
    ExtractTextPdf (.ok [' ']) (.ok ['x']) = (.ok ['x'], 1) :=
  ⟨Or.inr ⟨[' '], rfl, rfl⟩,
    (extractPdf_c2_amended (.ok [' ']) (.ok ['x']) (Or.inr ⟨[' '], rfl, rfl⟩)).1⟩

/-- C2 counterexample: with a whitespace-only text layer and an optical
fallback that succeeds while yielding no text, the extraction result is a
success carrying the empty string — not an extraction failure — and the
ingestion loop drops the file at the embedding step, not at the extraction
skip. -/
theorem extractPdf_c2_cex :
    ExtractTextPdf (.ok [' ']) (.ok []) = (.ok [], 1) ∧
    indexFile (.ok []) (fun _ => OllamaHttp.badJson) = .skipEmbed .noChunks ∧
    FileOutcome.skipEmbed .noChunks ≠ FileOutcome.skipExtract :=
  ⟨rfl, rfl, by decide⟩

/-! ### Claim C9 -/

/-- C9 (amended): on a successful page conversion the temporary page images
are still on disk when the optical fallback returns (the code performs no
cleanup), the result is the trimmed concatenation of the per-page
recognition results, and a recognition failure on one page contributes
nothing while the remaining pages are still processed. -/
theorem ocr_c9_amended (env : OcrEnv) (pages : List (List Char))
    (h : env.convertResult = some pages) :
    (ExtractTextWithOCRpdf env).2 = pages ∧
    (ExtractTextWithOCRpdf env).1 = .ok (trimSpace (ocrPages env.tess pages)) ∧
    (∀ tess (pre : List (List Char)) m post, runTesseract tess m = none →
      ocrPages tess (pre ++ m :: post) = ocrPages tess (pre ++ post)) := by
  refine ⟨?_, ?_, ?_⟩
  · simp [ExtractTextWithOCRpdf, h]
  · simp [ExtractTextWithOCRpdf, h]
  · intro tess pre m post hfail
    induction pre with
    | nil => simp [ocrPages, hfail]
    | cons p pre ih =>
      cases hrt : runTesseract tess p with
      | none => simp [ocrPages, hrt, ih]
      | some t => simp [ocrPages, hrt, ih]

/-- Witness for C9 (amended) at a one-page conversion with a successful
recognition. -/
theorem ocr_c9_witness :
    (OcrEnv.mk (some [['p']]) (fun _ => some ['x'])).convertResult = some [['p']] ∧
    (ExtractTextWithOCRpdf (OcrEnv.mk (some [['p']]) (fun _ => some ['x']))).2 =
      [['p']] ∧
    (ExtractTextWithOCRpdf (OcrEnv.mk (some [['p']]) (fun _ => some ['x']))).1 =
      .ok (trimSpace (ocrPages (fun _ => some ['x']) [['p']])) :=
  ⟨rfl, (ocr_c9_amended _ _ rfl).1, (ocr_c9_amended _ _ rfl).2.1⟩

/-- C9 counterexample: the original claim says the temporary page images are
removed before the fallback returns; on a successful one-page conversion the
leftover file list is the page list itself, not empty, while the call
succeeds. -/
theorem ocr_c9_cex :
    (ExtractTextWithOCRpdf (OcrEnv.mk (some [['p']]) (fun _ => some ['x']))).2 ≠ [] ∧
    (ExtractTextWithOCRpdf (OcrEnv.mk (some [['p']]) (fun _ => some ['x']))).1 =
      .ok ['x'] :=
  ⟨by decide, rfl⟩

/-! ### Claim C6 -/

/-- C6: with an empty retrieved-document list the summarize stage sets the
answer to the fixed no-documents message and succeeds, sending no prompt to
the generation backend (the call list is empty). -/
theorem summarizer_c6 {D : Type} (gen : List Char → Except Unit (List GenEvent))
    (s : State D) (h : s.docs = []) :
    SummarizerNode gen s = (.ok { s with ans := noDocsMsg }, []) := by
  unfold SummarizerNode
  rw [h]
  rfl

/-- Witness for C6 at a concrete empty-docs state; the backend oracle would
fail if called, and the stage still succeeds with the fixed message. -/
theorem summarizer_c6_witness :
    (State.mk ['q'] [] [] () : State Unit).docs = [] ∧
    SummarizerNode (fun _ => Except.error ()) (State.mk ['q'] [] [] () : State Unit) =
      (.ok (State.mk ['q'] [] noDocsMsg ()), []) :=
  ⟨rfl, summarizer_c6 _ _ rfl⟩

/-! ### Claim C7 -/

/-- A decode event that is a fragment with the completion flag unset. -/
def cleanFrag : GenEvent → Bool
  | .frag _ false => true
  | _ => false

/-- Concatenation, in arrival order, of the fragment texts of a stream. -/
def respConcat : List GenEvent → List Char
  | [] => []
  | .frag r _ :: rest => r ++ respConcat rest
  | .bad :: rest => respConcat rest

theorem consumeStream_append_clean :
    ∀ (pre : List GenEvent), (∀ e ∈ pre, cleanFrag e = true) →
      ∀ (rest : List GenEvent) (acc : List Char),
        consumeStream (pre ++ rest) acc = consumeStream rest (acc ++ respConcat pre) := by
  intro pre
  induction pre with
  | nil =>
    intro _ rest acc
    rw [List.nil_append]
    show consumeStream rest acc = consumeStream rest (acc ++ [])
    rw [List.append_nil]
  | cons e pre ih =>
    intro hclean rest acc
    cases e with
    | bad => exact absurd (hclean .bad (by simp)) (by simp [cleanFrag])
    | frag r d =>
      cases d with
      | true =>
        exact absurd (hclean (GenEvent.frag r true) (by simp)) (by simp [cleanFrag])
      | false =>
        show consumeStream (pre ++ rest) (acc ++ r) = _
        rw [ih (fun x hx => hclean x (by simp [hx])) rest (acc ++ r)]
        show _ = consumeStream rest (acc ++ (r ++ respConcat pre))
        rw [List.append_assoc]

theorem summarizerNode_ok {D : Type} (gen : List Char → Except Unit (List GenEvent))
    (s : State D) (hne : ¬ s.docs.length = 0) {events : List GenEvent}
    {text : List Char} (hgen : gen (buildPrompt s.query s.docs) = .ok events)
    (hcs : consumeStream events [] = .ok text) :
    SummarizerNode gen s = (.ok { s with ans := text }, [buildPrompt s.query s.docs]) := by
  unfold SummarizerNode
  rw [if_neg hne, hgen]
  show (match consumeStream events [] with
      | .error e => ((.error e : Except GraphErr (State D)), [buildPrompt s.query s.docs])
      | .ok t => (.ok { s with ans := t }, [buildPrompt s.query s.docs])) =
    (.ok { s with ans := text }, [buildPrompt s.query s.docs])
  rw [hcs]

theorem summarizerNode_err {D : Type} (gen : List Char → Except Unit (List GenEvent))
    (s : State D) (hne : ¬ s.docs.length = 0) {events : List GenEvent}
    {e : GraphErr} (hgen : gen (buildPrompt s.query s.docs) = .ok events)
    (hcs : consumeStream events [] = .error e) :
    SummarizerNode gen s = (.error e, [buildPrompt s.query s.docs]) := by
  unfold SummarizerNode
  rw [if_neg hne, hgen]
  show (match consumeStream events [] with
      | .error e => ((.error e : Except GraphErr (State D)), [buildPrompt s.query s.docs])
      | .ok t => (.ok { s with ans := t }, [buildPrompt s.query s.docs])) =
    (.error e, [buildPrompt s.query s.docs])
  rw [hcs]

/-- C7: the summarize stage concatenates streamed fragment texts in arrival
order into the answer; a fragment decode failure is an error for the stage;
consumption stops at the first fragment with the completion flag — whatever
follows it never reaches the answer — and also stops at end-of-stream. -/
theorem summarizer_c7 {D : Type} (gen : List Char → Except Unit (List GenEvent))
    (s : State D) (h : s.docs ≠ []) :
    (∀ pre r post, (∀ e ∈ pre, cleanFrag e = true) →
      gen (buildPrompt s.query s.docs) = .ok (pre ++ GenEvent.frag r true :: post) →
      SummarizerNode gen s =
        (.ok { s with ans := respConcat pre ++ r }, [buildPrompt s.query s.docs])) ∧
    (∀ pre post, (∀ e ∈ pre, cleanFrag e = true) →
      gen (buildPrompt s.query s.docs) = .ok (pre ++ GenEvent.bad :: post) →
      SummarizerNode gen s = (.error .decodeErr, [buildPrompt s.query s.docs])) ∧
    (∀ events, (∀ e ∈ events, cleanFrag e = true) →
      gen (buildPrompt s.query s.docs) = .ok events →
      SummarizerNode gen s =
        (.ok { s with ans := respConcat events }, [buildPrompt s.query s.docs])) := by
  have hne : ¬ s.docs.length = 0 := fun h0 => h (List.length_eq_zero.mp h0)
  refine ⟨?_, ?_, ?_⟩
  · intro pre r post hclean hgen
    have hcs : consumeStream (pre ++ GenEvent.frag r true :: post) [] =
        .ok (respConcat pre ++ r) := by
      rw [consumeStream_append_clean pre hclean (GenEvent.frag r true :: post) []]
      rfl
    exact summarizerNode_ok gen s hne hgen hcs
  · intro pre post hclean hgen
    have hcs : consumeStream (pre ++ GenEvent.bad :: post) [] =
        .error .decodeErr := by
      rw [consumeStream_append_clean pre hclean (GenEvent.bad :: post) []]
      rfl
    exact summarizerNode_err gen s hne hgen hcs
  · intro events hclean hgen
    have hev := consumeStream_append_clean events hclean [] []
    rw [List.append_nil] at hev
    have hcs : consumeStream events [] = .ok (respConcat events) := by
      rw [hev]
      rfl
    exact summarizerNode_ok gen s hne hgen hcs

/-- Witness for C7: a stream of one plain fragment, one completing fragment,
and a trailing fragment after the completion flag; the answer is the first
two texts only. -/
theorem summarizer_c7_witness :
    (State.mk ['q'] [['d']] [] () : State Unit).docs ≠ [] ∧
    SummarizerNode
        (fun _ => Except.ok
          [GenEvent.frag ['a'] false, GenEvent.frag ['b'] true,
            GenEvent.frag ['Z'] false])
        (State.mk ['q'] [['d']] [] () : State Unit) =
      (.ok (State.mk ['q'] [['d']] ['a', 'b'] ()),
        [buildPrompt ['q'] [['d']]]) := by
  refine ⟨by simp, ?_⟩
  exact (summarizer_c7 _ _ (by simp)).1 [GenEvent.frag ['a'] false] ['b']
    [GenEvent.frag ['Z'] false] (by decide) rfl

/-! ### Claim C8 -/

/-- C8: the critique stage appends the fixed advisory suffix exactly once
when the answer is under 50 characters, leaves the state untouched when the
answer has 50 or more characters, and always succeeds. -/
theorem critic_c8 {D : Type} (s : State D) :
    (s.ans.length < 50 →
      CriticNode s = .ok { s with ans := s.ans ++ advisorySuffix }) ∧
    (50 ≤ s.ans.length → CriticNode s = .ok s) ∧
    (∃ s', CriticNode s = .ok s') := by
  refine ⟨?_, ?_, ?_⟩
  · intro h
    unfold CriticNode
    rw [if_pos h]
  · intro h
    unfold CriticNode
    rw [if_neg (Nat.not_lt.mpr h)]
  · unfold CriticNode
    by_cases h : s.ans.length < 50
    · exact ⟨_, by rw [if_pos h]⟩
    · exact ⟨_, by rw [if_neg h]⟩

/-- Witness for C8: a one-character answer gains the suffix exactly once; a
60-character answer is returned unchanged. -/
theorem critic_c8_witness :
    (State.mk ['q'] [] ['a'] () : State Unit).ans.length < 50 ∧
    CriticNode (State.mk ['q'] [] ['a'] () : State Unit) =
      .ok (State.mk ['q'] [] ('a' :: advisorySuffix) ()) ∧
    50 ≤ (State.mk ['q'] [] (List.replicate 60 'x') () : State Unit).ans.length ∧
    CriticNode (State.mk ['q'] [] (List.replicate 60 'x') () : State Unit) =
      .ok (State.mk ['q'] [] (List.replicate 60 'x') ()) := by
  refine ⟨by decide, ?_, by decide, ?_⟩
  · exact (critic_c8 _).1 (by decide)
  · exact (critic_c8 _).2.1 (by decide)

end UDA
